import Mathlib

/-!
Verification of the Gromark-style Kryptos K4 cipher tool (`Gromark.py`).

The core operations of the source are embedded shallowly:

* text is `List Char`, keystreams are `List Nat`, scores are `Rat`;
* Python exceptions become `Except String`;
* the mutable queue of the keystream generators becomes explicit list passing.
-/

set_option maxHeartbeats 1000000

deriving instance DecidableEq for Except

namespace Gromark

/-- The standard uppercase alphabet, `string.ascii_uppercase` in the source. -/
def alphabet : List Char := "ABCDEFGHIJKLMNOPQRSTUVWXYZ".toList

/-- First-occurrence deduplication with an accumulator of letters already seen;
this is the `for ch in keyword: if ch not in seen: cipher.append(ch); seen.add(ch)`
loop of `build_cipher_alphabet` (Gromark.py lines 30-33). -/
def firstDedup : List Char → List Char → List Char
  | [], _ => []
  | ch :: rest, seen =>
    if ch ∈ seen then firstDedup rest seen else ch :: firstDedup rest (ch :: seen)

/-- Embedding of `build_cipher_alphabet` (Gromark.py lines 18-39).  The guard models
`if keyword and keyword.lower() != 'none'`, with `str.lower`/`str.upper`
taken character by character; after the first loop the Python set `seen` holds
exactly the members of `cipher`, so the second loop's test `ch not in seen` is
`ch ∉ cipher`. -/
def build_cipher_alphabet (keyword : String := "None") : List Char :=
  if keyword ≠ "" ∧ keyword.toList.map Char.toLower ≠ "none".toList then
    let kw := (keyword.toList.map Char.toUpper).filter (fun ch => decide (ch ∈ alphabet))
    let cipher := firstDedup kw []
    cipher ++ alphabet.filter (fun ch => decide (ch ∉ cipher))
  else
    alphabet

/-- The digits of the primer, `[int(ch) for ch in primer if ch.isdigit()]`, shared by every generator. -/
def primerDigits (primer : String) : List Nat :=
  (primer.toList.filter Char.isDigit).map (fun ch => ch.toNat - '0'.toNat)

/-- The lagged-Fibonacci loop shared by `generate_key_standard`,
`generate_key_berlin`, `generate_key_base5` and `generate_key_base12`:
at step `i` the queue `q0 :: q1 :: rest` emits `q0`, removes it and appends
`(q0 + q1) % modOf i`.  The final branch, for a queue with fewer than two
entries, is never reached from the generators: they reject primers with fewer
than two digits, and one step keeps the queue length unchanged. -/
def lfgRun (modOf : Nat → Nat) : Nat → List Nat → Nat → List Nat
  | _, _, 0 => []
  | i, q0 :: q1 :: rest, n + 1 =>
      q0 :: lfgRun modOf (i + 1) (q1 :: rest ++ [(q0 + q1) % modOf i]) n
  | _, _, _ + 1 => []

/-- Embedding of `generate_key_standard` (Gromark.py lines 41-70): constant modulus 10. -/
def generate_key_standard (primer : String) (length : Nat) : Except String (List Nat) :=
  let key_queue := primerDigits primer
  if key_queue.length < 2 then Except.error "Primer must contain at least two digits."
  else Except.ok (lfgRun (fun _ => 10) 0 key_queue length)

/-- Embedding of `generate_key_berlin` (Gromark.py lines 72-101): modulus 5 at even steps,
12 at odd steps. -/
def generate_key_berlin (primer : String) (length : Nat) : Except String (List Nat) :=
  let key_queue := primerDigits primer
  if key_queue.length < 2 then Except.error "Primer must contain at least two digits."
  else Except.ok (lfgRun (fun i => if i % 2 = 0 then 5 else 12) 0 key_queue length)

/-- Embedding of `generate_key_base5` (Gromark.py lines 103-116): constant modulus 5. -/
def generate_key_base5 (primer : String) (length : Nat) : Except String (List Nat) :=
  let key_queue := primerDigits primer
  if key_queue.length < 2 then Except.error "Primer must contain at least two digits."
  else Except.ok (lfgRun (fun _ => 5) 0 key_queue length)

/-- Embedding of `generate_key_base12` (Gromark.py lines 118-131): constant modulus 12. -/
def generate_key_base12 (primer : String) (length : Nat) : Except String (List Nat) :=
  let key_queue := primerDigits primer
  if key_queue.length < 2 then Except.error "Primer must contain at least two digits."
  else Except.ok (lfgRun (fun _ => 12) 0 key_queue length)

/-- The loop of `generate_key_custom_pattern` (Gromark.py lines 149-158).
`base := pattern[i % len(pattern)]` raises `ZeroDivisionError` in Python when
the pattern is empty (the `i % 0` inside the index), and `(q0 + q1) % base`
raises it when `base` is `0`; both become `Except.error`.  As in `lfgRun`, the
short-queue branch is unreachable from `generate_key_custom_pattern`. -/
def customRun (pattern : List Nat) : Nat → List Nat → Nat → Except String (List Nat)
  | _, _, 0 => Except.ok []
  | i, q0 :: q1 :: rest, n + 1 =>
      match pattern with
      | [] => Except.error "integer modulo by zero"
      | _ :: _ =>
        let base := pattern.getD (i % pattern.length) 0
        if base = 0 then Except.error "integer modulo by zero"
        else
          Except.map (fun tail => q0 :: tail)
            (customRun pattern (i + 1) (q1 :: rest ++ [(q0 + q1) % base]) n)
  | _, _, _ + 1 => Except.error "index out of range"

/-- Embedding of `generate_key_custom_pattern` (Gromark.py lines 133-160). -/
def generate_key_custom_pattern (primer : String) (length : Nat) (pattern : List Nat) :
    Except String (List Nat) :=
  let key_queue := primerDigits primer
  if key_queue.length < 2 then Except.error "Primer must contain at least two digits."
  else customRun pattern 0 key_queue length

/-- The loop body of `encrypt` (Gromark.py lines 172-185) for one character
and its key digit.  `cipher_alphabet[cipher_index]` is `getD` with an unused
default: the index is always below 26, the length of every alphabet built by
`build_cipher_alphabet`. -/
def encryptChar (cipher_alphabet : List Char) (ch : Char) (key_digit : Nat) : Char :=
  if ch.toUpper ∈ alphabet then
    let i := alphabet.indexOf ch.toUpper
    let cipher_index := (i + key_digit) % 26
    let cipher_letter := cipher_alphabet.getD cipher_index 'A'
    if ch.isLower then cipher_letter.toLower else cipher_letter
  else ch

/-- Embedding of `encrypt` (Gromark.py lines 162-187); `zip` truncates to the shorter of
text and keystream exactly as Python `zip` does. -/
def encrypt (plaintext : List Char) (key_stream : List Nat)
    (cipher_alphabet : List Char) : List Char :=
  (plaintext.zip key_stream).map (fun p => encryptChar cipher_alphabet p.1 p.2)

/-- The loop body of `decrypt` (Gromark.py lines 209-222).  Python's
`(j - key_digit) % 26` on a possibly negative difference is `Int.emod`. -/
def decryptChar (cipher_alphabet : List Char) (ch : Char) (key_digit : Nat) : Char :=
  if ch.toUpper ∈ cipher_alphabet then
    let j := cipher_alphabet.indexOf ch.toUpper
    let base_index := (((j : Int) - (key_digit : Int)) % 26).toNat
    let plain_letter := alphabet.getD base_index 'A'
    if ch.isLower then plain_letter.toLower else plain_letter
  else ch

/-- Embedding of `decrypt` (Gromark.py lines 189-223). -/
def decrypt (ciphertext : List Char) (key_stream : List Nat)
    (cipher_alphabet : List Char) : List Char :=
  (ciphertext.zip key_stream).map (fun p => decryptChar cipher_alphabet p.1 p.2)

/-- English letter frequencies (Gromark.py lines 240-243).  Every weight in
the source is a multiple of 0.1, so scores are carried exactly in tenths of a
point: the table holds ten times the source's values, and every bonus and
penalty below is likewise scaled by ten. -/
def freq : List (Char × Int) :=
  [('E', 127), ('T', 91), ('A', 82), ('O', 75), ('I', 70), ('N', 67), ('S', 63), ('H', 61),
   ('R', 60), ('D', 43), ('L', 40), ('C', 28), ('U', 28), ('M', 24), ('W', 24), ('F', 22),
   ('G', 20), ('Y', 20), ('P', 19), ('B', 15), ('V', 10), ('K', 8), ('J', 2), ('X', 2),
   ('Q', 1), ('Z', 1)]

/-- Common English bigrams (Gromark.py lines 246-247). -/
def common_bigrams : List (List Char) :=
  ["TH", "HE", "IN", "ER", "AN", "RE", "ON", "AT", "EN", "ND",
   "TI", "ES", "OR", "TE", "OF", "ED", "IS", "IT", "AL", "AR"].map String.toList

/-- Common English trigrams (Gromark.py line 250). -/
def common_trigrams : List (List Char) :=
  ["THE", "AND", "THA", "ENT", "ING", "ION", "TIO", "FOR", "NDE", "HAS"].map String.toList

/-- Common English words (Gromark.py lines 253-254). -/
def common_words : List (List Char) :=
  ["THE", "OF", "AND", "TO", "IN", "IS", "IT", "THAT", "WAS", "HE",
   "FOR", "ON", "ARE", "AS", "WITH", "HIS", "THEY", "BE", "AT", "ONE"].map String.toList

/-- Python `str.split()` with no separator: split on runs of whitespace,
dropping empty tokens.  The first argument accumulates the current word in
reverse. -/
def splitRun : List Char → List Char → List (List Char)
  | acc, [] => if acc = [] then [] else [acc.reverse]
  | acc, c :: rest =>
    if c.isWhitespace then
      (if acc = [] then splitRun [] rest else acc.reverse :: splitRun [] rest)
    else splitRun (c :: acc) rest

/-- Python `str.count`: the number of non-overlapping occurrences of `sub`,
scanning left to right.  The fuel argument starts at the length of the scanned
string, which bounds the number of scanning steps once `sub` is non-empty, so
the function is structurally recursive yet agrees with the unfueled scan. -/
def countSubFuel (sub : List Char) : Nat → List Char → Nat
  | 0, _ => 0
  | _ + 1, [] => 0
  | fuel + 1, c :: rest =>
    if sub.isPrefixOf (c :: rest) then 1 + countSubFuel sub fuel ((c :: rest).drop sub.length)
    else countSubFuel sub fuel rest

/-- Python `text.count(pattern)`; an empty pattern is found `len + 1` times. -/
def countSub (sub s : List Char) : Nat :=
  if sub = [] then s.length + 1 else countSubFuel sub s.length s

/-- Embedding of `score_text` (Gromark.py lines 232-295), in tenths of a point (see
`freq`): the bigram bonus 5 is `50`, the trigram bonus 10 is `100`, the word
bonus 20 is `200`, the non-alphabetic penalty 5 is `50` and the repetition
penalty `pattern_count * 10` is `pattern_count * 100`.  Each
`score += ...`/`score -= ...` loop becomes a fold, in source order: letter
frequencies, bigrams, trigrams, words, non-alphabetic penalty, and the
repetition penalty over `range(len(text) - 5)` window starts. -/
def score_text (text : List Char) : Int :=
  let text_upper := text.map Char.toUpper
  let s1 : Int := text_upper.foldl
    (fun s char => match freq.lookup char with | some v => s + v | none => s) 0
  let s2 := (List.range (text.length - 1)).foldl
    (fun s i => if (text_upper.drop i).take 2 ∈ common_bigrams then s + 50 else s) s1
  let s3 := (List.range (text.length - 2)).foldl
    (fun s i => if (text_upper.drop i).take 3 ∈ common_trigrams then s + 100 else s) s2
  let s4 := (splitRun [] text_upper).foldl
    (fun s word => if word ∈ common_words then s + 200 else s) s3
  let s5 := text.foldl
    (fun s char => if ¬ char.isAlpha ∧ ¬ char.isWhitespace then s - 50 else s) s4
  (List.range (text.length - 5)).foldl
    (fun s i =>
      let pat := (text.drop i).take 5
      let pattern_count := countSub pat text
      if pattern_count > 2 then s - (pattern_count : Int) * 100 else s) s5

/-- Embedding of `process_decryption_attempt` (Gromark.py lines 297-309); `str(primer)` is
`Nat.repr`.  A `ValueError` escaping `generate_key_custom_pattern` propagates
out of the worker uncaught. -/
def process_decryption_attempt (ciphertext : List Char) (primer : Nat)
    (pattern : List Nat) (cipher_alphabet : List Char) :
    Except String (Int × Nat × List Nat × List Char) :=
  match generate_key_custom_pattern (Nat.repr primer) ciphertext.length pattern with
  | Except.error e => Except.error e
  | Except.ok key_stream =>
    let decryption := decrypt ciphertext key_stream cipher_alphabet
    Except.ok (score_text decryption, primer, pattern, decryption)

/-- Retrieving results from `executor.map` in submission order
(Gromark.py lines 326-327): values before the first failure are appended to
`results`, and the first raised exception propagates, discarding the batch. -/
def collectResults {α : Type} : List (Except String α) → Except String (List α)
  | [] => Except.ok []
  | Except.error e :: _ => Except.error e
  | Except.ok a :: rest => Except.map (fun l => a :: l) (collectResults rest)

/-- Embedding of `brute_force_decrypt` (Gromark.py lines 311-331).  The argument list is
the `for primer in primer_range for pattern in base_patterns` product; the
final sort is stable and descending by score
(`key=lambda x: x[0], reverse=True`), then the first `num_results` are kept. -/
def brute_force_decrypt (ciphertext : List Char) (primer_range : List Nat)
    (keyword : String) (base_patterns : List (List Nat)) (num_results : Nat := 10) :
    Except String (List (Int × Nat × List Nat × List Char)) :=
  let cipher_alphabet := build_cipher_alphabet keyword
  let args_list := primer_range.flatMap
    (fun primer => base_patterns.map (fun pattern => (primer, pattern)))
  Except.map
    (fun results => (results.mergeSort (fun x y => decide (y.1 ≤ x.1))).take num_results)
    (collectResults (args_list.map
      (fun args => process_decryption_attempt ciphertext args.1 args.2 cipher_alphabet)))

/-- Embedding of `itertools.product(vals, repeat=n)` as ordered tuples, first coordinate
varying slowest, exactly the order `itertools.product` yields. -/
def productRep (vals : List Nat) : Nat → List (List Nat)
  | 0 => [[]]
  | n + 1 => vals.flatMap (fun v => (productRep vals n).map (fun t => v :: t))

/-- One appending step, `if list(combo) not in patterns: patterns.append(list(combo))`
(Gromark.py lines 359-360). -/
def patternStep (ps : List (List Nat)) (combo : List Nat) : List (List Nat) :=
  if combo ∈ ps then ps else ps ++ [combo]

/-- Embedding of `generate_berlin_clock_patterns` (Gromark.py lines 333-362): six seed
patterns, then for each length from 2 to `max_pattern_length` every
combination of 5 and 12 of that length, skipping combinations already
present. -/
def generate_berlin_clock_patterns (max_pattern_length : Nat := 5) : List (List Nat) :=
  let seeds : List (List Nat) :=
    [[5], [12], [5, 12], [5, 5, 12, 12], [4, 11], [4, 4, 11, 11]]
  (List.range' 2 (max_pattern_length - 1)).foldl
    (fun patterns len => (productRep [5, 12] len).foldl patternStep patterns) seeds

/-- Modelled from the claim's words: the number of start positions at which
`p` occurs in `text`, occurrences allowed to overlap — the literal reading of
'how many times that exact window occurs anywhere in the text'. -/
def countOcc (p text : List Char) : Nat :=
  ((List.range (text.length + 1)).filter
    (fun i => decide ((text.drop i).take p.length = p))).length

/-- Modelled from the claim's words: the repetition penalty taken at every
overlapping 5-character window start (0 through `len - 5`), subtracting ten
points times the occurrence count whenever it exceeds 2 (in tenths:
`count * 100`). -/
def claimedRepetitionPenalty (text : List Char) : Int :=
  ((List.range (text.length - 4)).map
    (fun i =>
      let pat := (text.drop i).take 5
      let pattern_count := countOcc pat text
      if pattern_count > 2 then (pattern_count : Int) * 100 else 0)).sum

/-- The repetition penalty the code applies: window starts 0 through `len - 6`
only (`range(len(text) - 5)`), with Python's non-overlapping `str.count`. -/
def codeRepetitionPenalty (text : List Char) : Int :=
  ((List.range (text.length - 5)).map
    (fun i =>
      let pat := (text.drop i).take 5
      let pattern_count := countSub pat text
      if pattern_count > 2 then (pattern_count : Int) * 100 else 0)).sum

/-- The value of `score_text` up to and including the non-alphabetic penalty
(Gromark.py lines 257-286): the same folds as `score_text`, without the final
repetition loop. -/
def score_text_base (text : List Char) : Int :=
  let text_upper := text.map Char.toUpper
  let s1 : Int := text_upper.foldl
    (fun s char => match freq.lookup char with | some v => s + v | none => s) 0
  let s2 := (List.range (text.length - 1)).foldl
    (fun s i => if (text_upper.drop i).take 2 ∈ common_bigrams then s + 50 else s) s1
  let s3 := (List.range (text.length - 2)).foldl
    (fun s i => if (text_upper.drop i).take 3 ∈ common_trigrams then s + 100 else s) s2
  let s4 := (splitRun [] text_upper).foldl
    (fun s word => if word ∈ common_words then s + 200 else s) s3
  text.foldl
    (fun s char => if ¬ char.isAlpha ∧ ¬ char.isWhitespace then s - 50 else s) s4

/-! ### Lemmas about the alphabet builder -/

theorem mem_firstDedup (x : Char) (l : List Char) :
    ∀ seen, x ∈ firstDedup l seen ↔ x ∈ l ∧ x ∉ seen := by
  induction l with
  | nil => intro seen; simp [firstDedup]
  | cons ch rest ih =>
    intro seen
    by_cases h : ch ∈ seen
    · rw [firstDedup, if_pos h, ih seen]
      constructor
      · rintro ⟨hx, hs⟩
        exact ⟨List.mem_cons_of_mem _ hx, hs⟩
      · rintro ⟨hx, hs⟩
        rcases List.mem_cons.mp hx with rfl | hx2
        · exact (hs h).elim
        · exact ⟨hx2, hs⟩
    · rw [firstDedup, if_neg h]
      simp only [List.mem_cons, ih (ch :: seen)]
      constructor
      · rintro (rfl | ⟨hr, hn⟩)
        · exact ⟨Or.inl rfl, h⟩
        · exact ⟨Or.inr hr, fun hs => hn (Or.inr hs)⟩
      · rintro ⟨rfl | hr, hs⟩
        · exact Or.inl rfl
        · by_cases hxc : x = ch
          · exact Or.inl hxc
          · exact Or.inr ⟨hr, fun hcs => hcs.elim hxc hs⟩

theorem nodup_firstDedup (l : List Char) : ∀ seen, (firstDedup l seen).Nodup := by
  induction l with
  | nil => intro seen; simp [firstDedup]
  | cons ch rest ih =>
    intro seen
    by_cases h : ch ∈ seen
    · rw [firstDedup, if_pos h]; exact ih seen
    · rw [firstDedup, if_neg h]
      refine List.nodup_cons.mpr ⟨fun hmem => ?_, ih (ch :: seen)⟩
      exact ((mem_firstDedup ch rest (ch :: seen)).mp hmem).2 (List.mem_cons_self ch seen)

theorem alphabet_nodup : alphabet.Nodup := by decide

theorem dedup_complete_perm (kw : List Char) (hsub : ∀ c ∈ kw, c ∈ alphabet) :
    (firstDedup kw [] ++
      alphabet.filter (fun ch => decide (ch ∉ firstDedup kw []))).Perm alphabet := by
  have hnd : (firstDedup kw []).Nodup := nodup_firstDedup kw []
  have hndall :
      (firstDedup kw [] ++
        alphabet.filter (fun ch => decide (ch ∉ firstDedup kw []))).Nodup := by
    refine List.nodup_append.mpr ⟨hnd, List.Nodup.filter _ alphabet_nodup, ?_⟩
    intro a ha hb
    rcases List.mem_filter.mp hb with ⟨_, hpb⟩
    exact (decide_eq_true_eq.mp hpb) ha
  refine (List.perm_ext_iff_of_nodup hndall alphabet_nodup).mpr (fun a => ?_)
  simp only [List.mem_append, List.mem_filter, decide_eq_true_eq]
  constructor
  · rintro (ha | ⟨ha, _⟩)
    · exact hsub a ((mem_firstDedup a kw []).mp ha).1
    · exact ha
  · intro ha
    by_cases hd : a ∈ firstDedup kw []
    · exact Or.inl hd
    · exact Or.inr ⟨ha, hd⟩

theorem build_cipher_alphabet_perm (keyword : String) :
    (build_cipher_alphabet keyword).Perm alphabet := by
  rw [build_cipher_alphabet]
  by_cases hg : keyword ≠ "" ∧ keyword.toList.map Char.toLower ≠ "none".toList
  · rw [if_pos hg]
    exact dedup_complete_perm _ (fun c hc => by
      simpa using (List.mem_filter.mp hc).2)
  · rw [if_neg hg]

/-! ### Character-level facts, provable by evaluation -/

theorem alphabet_toUpper : ∀ c ∈ alphabet, c.toUpper = c := by decide

theorem alphabet_not_isLower : ∀ c ∈ alphabet, c.isLower = false := by decide

theorem alphabet_length : alphabet.length = 26 := by decide

/-! ### The substitution transform -/

theorem decryptChar_encryptChar (C : List Char) (hC : C.Perm alphabet)
    (ch : Char) (hch : ch ∈ alphabet) (d : Nat) :
    decryptChar C (encryptChar C ch d) d = ch := by
  have hlen : C.length = 26 := by rw [hC.length_eq, alphabet_length]
  have hnd : C.Nodup := hC.nodup_iff.mpr alphabet_nodup
  have hup : ch.toUpper = ch := alphabet_toUpper ch hch
  have hlow : ch.isLower = false := alphabet_not_isLower ch hch
  have hi : alphabet.indexOf ch < alphabet.length := List.indexOf_lt_length.mpr hch
  have hi26 : alphabet.indexOf ch < 26 := by rw [← alphabet_length]; exact hi
  have hidxC : (alphabet.indexOf ch + d) % 26 < C.length := by
    rw [hlen]; exact Nat.mod_lt _ (by norm_num)
  have henc : encryptChar C ch d = C[(alphabet.indexOf ch + d) % 26] := by
    simp only [encryptChar, hup, if_pos hch, hlow, Bool.false_eq_true, if_false]
    exact List.getD_eq_getElem C 'A' hidxC
  rw [henc]
  have hmem : C[(alphabet.indexOf ch + d) % 26] ∈ C := List.getElem_mem hidxC
  have hmemA : C[(alphabet.indexOf ch + d) % 26] ∈ alphabet := hC.mem_iff.mp hmem
  have hupe : (C[(alphabet.indexOf ch + d) % 26]).toUpper
      = C[(alphabet.indexOf ch + d) % 26] := alphabet_toUpper _ hmemA
  have hlowe : (C[(alphabet.indexOf ch + d) % 26]).isLower = false :=
    alphabet_not_isLower _ hmemA
  have hj : C.indexOf C[(alphabet.indexOf ch + d) % 26] = (alphabet.indexOf ch + d) % 26 :=
    List.indexOf_getElem hnd _ hidxC
  simp only [decryptChar, hupe, if_pos hmem, hj, hlowe, Bool.false_eq_true, if_false]
  have hbase :
      (((((alphabet.indexOf ch + d) % 26 : Nat) : Int) - (d : Int)) % 26).toNat
        = alphabet.indexOf ch := by omega
  rw [hbase, List.getD_eq_getElem alphabet 'A' hi]
  exact List.getElem_indexOf hi

theorem decrypt_encrypt (C : List Char) (hC : C.Perm alphabet) :
    ∀ (pt : List Char) (ks : List Nat), (∀ c ∈ pt, c ∈ alphabet) →
      pt.length ≤ ks.length → decrypt (encrypt pt ks C) ks C = pt := by
  intro pt
  induction pt with
  | nil => intro ks _ _; rfl
  | cons c rest ih =>
    intro ks hall hlen
    cases ks with
    | nil => simp at hlen
    | cons d ks =>
      have h1 : encrypt (c :: rest) (d :: ks) C = encryptChar C c d :: encrypt rest ks C := rfl
      have h2 : decrypt (encryptChar C c d :: encrypt rest ks C) (d :: ks) C
          = decryptChar C (encryptChar C c d) d :: decrypt (encrypt rest ks C) ks C := rfl
      rw [h1, h2, decryptChar_encryptChar C hC c (hall c (List.mem_cons_self c rest)) d,
        ih ks (fun x hx => hall x (List.mem_cons_of_mem c hx)) (Nat.le_of_succ_le_succ hlen)]

/-! ### Claim theorems: C2, C5, C10 -/

/-- C2: for a plaintext of A-Z letters only, any keyword and any keystream at
least as long as the text, decrypting the encryption with the same keystream
and keyword-derived cipher alphabet returns the plaintext. -/
theorem c2_encrypt_decrypt_roundtrip (plaintext : List Char) (keyword : String)
    (ks : List Nat) (hletters : ∀ c ∈ plaintext, c ∈ alphabet)
    (hlen : plaintext.length ≤ ks.length) :
    decrypt (encrypt plaintext ks (build_cipher_alphabet keyword)) ks
      (build_cipher_alphabet keyword) = plaintext :=
  decrypt_encrypt _ (build_cipher_alphabet_perm keyword) plaintext ks hletters hlen

theorem c2_encrypt_decrypt_roundtrip_witness :
    (∀ c ∈ "HELLO".toList, c ∈ alphabet) ∧
      "HELLO".toList.length ≤ [3, 1, 4, 1, 5].length ∧
      decrypt (encrypt "HELLO".toList [3, 1, 4, 1, 5] (build_cipher_alphabet "KRYPTOS"))
        [3, 1, 4, 1, 5] (build_cipher_alphabet "KRYPTOS") = "HELLO".toList :=
  ⟨by decide, by decide,
    c2_encrypt_decrypt_roundtrip "HELLO".toList "KRYPTOS" [3, 1, 4, 1, 5]
      (by decide) (by decide)⟩

/-- C5: `build_cipher_alphabet` returns a permutation of the 26 uppercase
letters for every input, and an empty or case-insensitively "none" keyword
(including the absent-keyword default "None") yields the standard alphabet
unchanged. -/
theorem c5_build_cipher_alphabet_permutation (keyword : String) :
    (build_cipher_alphabet keyword).Perm alphabet ∧
      ((keyword = "" ∨ keyword.toList.map Char.toLower = "none".toList) →
        build_cipher_alphabet keyword = alphabet) := by
  refine ⟨build_cipher_alphabet_perm keyword, fun h => ?_⟩
  rw [build_cipher_alphabet, if_neg]
  rintro ⟨h1, h2⟩
  rcases h with h | h
  · exact h1 h
  · exact h2 h

theorem c5_build_cipher_alphabet_permutation_witness :
    build_cipher_alphabet "NoNe" = alphabet ∧
      (build_cipher_alphabet "KRYPTOS").Perm alphabet :=
  ⟨(c5_build_cipher_alphabet_permutation "NoNe").2 (Or.inr (by decide)),
    (c5_build_cipher_alphabet_permutation "KRYPTOS").1⟩

/-- C10: `encrypt` and `decrypt` both return exactly
`min (text length) (keystream length)` characters — with a short keystream the
trailing text is dropped, not passed through. -/
theorem c10_output_length_min (text : List Char) (ks : List Nat)
    (cipher_alphabet : List Char) :
    (encrypt text ks cipher_alphabet).length = min text.length ks.length ∧
      (decrypt text ks cipher_alphabet).length = min text.length ks.length := by
  constructor <;> simp [encrypt, decrypt]

/-! ### The keystream generators -/

theorem lfgRun_length (modOf : Nat → Nat) :
    ∀ (n i : Nat) (q : List Nat), 2 ≤ q.length → (lfgRun modOf i q n).length = n := by
  intro n
  induction n with
  | zero => intro i q hq; rw [lfgRun]; rfl
  | succ n ih =>
    intro i q hq
    cases q with
    | nil => simp at hq
    | cons q0 qt =>
      cases qt with
      | nil => simp at hq
      | cons q1 rest =>
        rw [lfgRun, List.length_cons, ih (i + 1)]
        simp

theorem lfgRun_getElem_prefix (modOf : Nat → Nat) :
    ∀ (n i : Nat) (q : List Nat) (k : Nat), 2 ≤ q.length → k < n → k < q.length →
      (lfgRun modOf i q n)[k]? = q[k]? := by
  intro n
  induction n with
  | zero => intro i q k _ hk _; exact absurd hk (Nat.not_lt_zero k)
  | succ n ih =>
    intro i q k hq hkn hkq
    cases q with
    | nil => simp at hq
    | cons q0 qt =>
      cases qt with
      | nil => simp at hq
      | cons q1 rest =>
        rw [lfgRun]
        cases k with
        | zero => simp
        | succ k =>
          simp only [List.getElem?_cons_succ]
          have hk1 : k < (q1 :: rest).length := by
            simp only [List.length_cons] at hkq ⊢
            omega
          have happ : ((q1 :: rest) ++ [(q0 + q1) % modOf i])[k]? = (q1 :: rest)[k]? :=
            List.getElem?_append_left hk1
          rw [ih (i + 1) (q1 :: rest ++ [(q0 + q1) % modOf i]) k (by simp) (by omega)
            (by simp at hk1 ⊢; omega)]
          exact happ

theorem lfgRun_getElem_bound (modOf : Nat → Nat) (W : Nat) (hmod : ∀ j, 0 < modOf j) :
    ∀ (n i : Nat) (q : List Nat), q.length = W → 2 ≤ W →
      (∀ p d, q[p]? = some d → W ≤ i + p → d < modOf (i + p - W)) →
      ∀ k d, (lfgRun modOf i q n)[k]? = some d → W ≤ i + k → d < modOf (i + k - W) := by
  intro n
  induction n with
  | zero => intro i q _ _ _ k d hk _; rw [lfgRun] at hk; simp at hk
  | succ n ih =>
    intro i q hqW h2 hgood k d hout hWk
    cases q with
    | nil => simp at hqW; omega
    | cons q0 qt =>
      cases qt with
      | nil => simp at hqW; omega
      | cons q1 rest =>
        rw [lfgRun] at hout
        cases k with
        | zero =>
          have hd : d = q0 := by simpa using hout.symm
          subst hd
          exact hgood 0 d rfl hWk
        | succ k =>
          simp only [List.getElem?_cons_succ] at hout
          have harg : i + 1 + k - W = i + (k + 1) - W := by omega
          rw [← harg]
          refine ih (i + 1) (q1 :: rest ++ [(q0 + q1) % modOf i]) ?_ h2 ?_ k d hout (by omega)
          · simp at hqW ⊢
            omega
          · intro p e hpe hWp
            have hpe2 : ((q1 :: rest) ++ [(q0 + q1) % modOf i])[p]? = some e := hpe
            by_cases hp : p < (q1 :: rest).length
            · rw [List.getElem?_append_left hp] at hpe2
              have hq : (q0 :: q1 :: rest)[p + 1]? = some e := by simpa using hpe2
              have hres := hgood (p + 1) e hq (by omega)
              have harg2 : i + (p + 1) - W = i + 1 + p - W := by omega
              rw [← harg2]
              exact hres
            · rw [List.getElem?_append_right (by omega)] at hpe2
              have hp0 : p - (q1 :: rest).length = 0 := by
                rcases List.getElem?_eq_some.mp hpe2 with ⟨hb, _⟩
                have hL1 : (q1 :: rest).length = rest.length + 1 := rfl
                have hL2 : [(q0 + q1) % modOf i].length = 1 := rfl
                omega
              rw [hp0] at hpe2
              have he : e = (q0 + q1) % modOf i := by simpa using hpe2.symm
              subst he
              have hparg : i + 1 + p - W = i := by
                simp at hqW hp hp0
                omega
              rw [hparg]
              exact Nat.mod_lt _ (hmod i)

theorem pattern_getD_mem (pattern : List Nat) (hne : pattern ≠ []) (j : Nat) :
    pattern.getD (j % pattern.length) 0 ∈ pattern := by
  have hpos : 0 < pattern.length := by
    cases pattern
    · exact absurd rfl hne
    · simp
  have hlt : j % pattern.length < pattern.length := Nat.mod_lt _ hpos
  rw [List.getD_eq_getElem _ _ hlt]
  exact List.getElem_mem hlt

theorem customRun_eq_lfgRun (pattern : List Nat) (hne : pattern ≠ [])
    (hpos : ∀ b ∈ pattern, 0 < b) :
    ∀ (n i : Nat) (q : List Nat), 2 ≤ q.length →
      customRun pattern i q n
        = Except.ok (lfgRun (fun j => pattern.getD (j % pattern.length) 0) i q n) := by
  intro n
  induction n with
  | zero => intro i q hq; rw [customRun, lfgRun]
  | succ n ih =>
    intro i q hq
    cases q with
    | nil => simp at hq
    | cons q0 qt =>
      cases qt with
      | nil => simp at hq
      | cons q1 rest =>
        have hbase : pattern.getD (i % pattern.length) 0 ≠ 0 := by
          have := hpos _ (pattern_getD_mem pattern hne i)
          omega
        cases pattern with
        | nil => exact absurd rfl hne
        | cons p ps =>
          rw [customRun, lfgRun]
          simp only [if_neg hbase, Except.map]
          rw [ih (i + 1)
            (q1 :: rest ++ [(q0 + q1) % (p :: ps).getD (i % (p :: ps).length) 0])
            (by simp)]

theorem customRun_nil_error : ∀ (n i : Nat) (q : List Nat), 2 ≤ q.length → 1 ≤ n →
    customRun [] i q n = Except.error "integer modulo by zero" := by
  intro n i q hq hn
  cases n with
  | zero => omega
  | succ n =>
    cases q with
    | nil => simp at hq
    | cons q0 qt =>
      cases qt with
      | nil => simp at hq
      | cons q1 rest => rw [customRun]

theorem primerDigits_lt_ten (primer : String) : ∀ d ∈ primerDigits primer, d < 10 := by
  intro d hd
  simp only [primerDigits, List.mem_map, List.mem_filter] at hd
  rcases hd with ⟨c, ⟨_, hdig⟩, rfl⟩
  simp only [Char.isDigit, Bool.and_eq_true, decide_eq_true_eq] at hdig
  obtain ⟨h1, h2⟩ := hdig
  have h2n : c.toNat ≤ 57 := h2
  have hz : ('0'.toNat : Nat) = 48 := rfl
  omega

/-! ### Claim theorems: C3, C6, C7, C8 -/

/-- C3 counterexample: under the fixed base-5 policy the primer digit 9 of
primer "39" is emitted unchanged as the second keystream digit, so not every
emitted digit is below the modulus 5. -/
theorem c3_counterexample_base5_digit :
    ¬ (∀ ks, generate_key_base5 "39" 2 = Except.ok ks → ∀ d ∈ ks, d < 5) := by
  intro h
  have h9 := h [3, 9] (by decide) 9 (by decide)
  omega

/-- Prefix replay and per-step modulus bound for one run of the shared
generator loop started at step 0: output digit `k < W` is queue digit `k`
(the primer replayed unchanged), and output digit `k ≥ W` was computed at
step `k - W`, so it is below `modOf (k - W)`. -/
theorem lfgRun_prefix_and_bound (modOf : Nat → Nat) (hmod : ∀ j, 0 < modOf j)
    (Q : List Nat) (N : Nat) (hp : 2 ≤ Q.length) :
    (∀ k, k < N → k < Q.length → (lfgRun modOf 0 Q N)[k]? = Q[k]?) ∧
      (∀ k d, Q.length ≤ k → (lfgRun modOf 0 Q N)[k]? = some d →
        d < modOf (k - Q.length)) := by
  constructor
  · intro k hkN hkW
    exact lfgRun_getElem_prefix modOf N 0 Q k hp hkN hkW
  · intro k d hWk hkd
    have hgood : ∀ p d, Q[p]? = some d → Q.length ≤ 0 + p →
        d < modOf (0 + p - Q.length) := by
      intro p d hpd hWp
      rcases List.getElem?_eq_some.mp hpd with ⟨hlt, _⟩
      omega
    have hres := lfgRun_getElem_bound modOf Q.length hmod N 0 Q rfl hp hgood k d hkd
      (by omega)
    have harg : 0 + k - Q.length = k - Q.length := by omega
    rw [harg] at hres
    exact hres

/-- C3 (amended): every generator — standard, berlin alternating, fixed base
5, fixed base 12, and custom pattern — first replays the primer digits
unchanged: keystream digit `k < W` (`W` = number of primer digits) is primer
digit `k`, and primer digits are bounded only by 10.  Every digit emitted at
step `k ≥ W` lies in the modulus range implied by the policy at the step that
computed it, step `k - W`: below 10 for standard, below 5 or 12 by the parity
of `k - W` for berlin, below 5 for fixed base 5, below 12 for fixed base 12,
and below `pattern[(k - W) % len(pattern)]` for a custom pattern. -/
theorem c3_amended_digit_ranges (primer : String) (N : Nat) (pattern : List Nat)
    (hp : 2 ≤ (primerDigits primer).length) :
    (∀ ks, generate_key_standard primer N = Except.ok ks →
      (∀ k, k < N → k < (primerDigits primer).length →
        ks[k]? = (primerDigits primer)[k]?) ∧
      (∀ k d, (primerDigits primer).length ≤ k → ks[k]? = some d → d < 10)) ∧
    (∀ ks, generate_key_berlin primer N = Except.ok ks →
      (∀ k, k < N → k < (primerDigits primer).length →
        ks[k]? = (primerDigits primer)[k]?) ∧
      (∀ k d, (primerDigits primer).length ≤ k → ks[k]? = some d →
        d < if (k - (primerDigits primer).length) % 2 = 0 then 5 else 12)) ∧
    (∀ ks, generate_key_base5 primer N = Except.ok ks →
      (∀ k, k < N → k < (primerDigits primer).length →
        ks[k]? = (primerDigits primer)[k]?) ∧
      (∀ k d, (primerDigits primer).length ≤ k → ks[k]? = some d → d < 5)) ∧
    (∀ ks, generate_key_base12 primer N = Except.ok ks →
      (∀ k, k < N → k < (primerDigits primer).length →
        ks[k]? = (primerDigits primer)[k]?) ∧
      (∀ k d, (primerDigits primer).length ≤ k → ks[k]? = some d → d < 12)) ∧
    (pattern ≠ [] → (∀ b ∈ pattern, 2 ≤ b) →
      ∀ ks, generate_key_custom_pattern primer N pattern = Except.ok ks →
        (∀ k, k < N → k < (primerDigits primer).length →
          ks[k]? = (primerDigits primer)[k]?) ∧
        (∀ k d, (primerDigits primer).length ≤ k → ks[k]? = some d →
          d < pattern.getD ((k - (primerDigits primer).length) % pattern.length) 0)) ∧
    (∀ d ∈ primerDigits primer, d < 10) := by
  have hnot : ¬ (primerDigits primer).length < 2 := by omega
  refine ⟨?_, ?_, ?_, ?_, ?_, primerDigits_lt_ten primer⟩
  · intro ks hks
    simp only [generate_key_standard, if_neg hnot, Except.ok.injEq] at hks
    subst hks
    exact lfgRun_prefix_and_bound (fun _ => 10) (fun _ => by norm_num) _ N hp
  · intro ks hks
    simp only [generate_key_berlin, if_neg hnot, Except.ok.injEq] at hks
    subst hks
    exact lfgRun_prefix_and_bound (fun i => if i % 2 = 0 then 5 else 12)
      (fun j => by by_cases h : j % 2 = 0 <;> simp [h]) _ N hp
  · intro ks hks
    simp only [generate_key_base5, if_neg hnot, Except.ok.injEq] at hks
    subst hks
    exact lfgRun_prefix_and_bound (fun _ => 5) (fun _ => by norm_num) _ N hp
  · intro ks hks
    simp only [generate_key_base12, if_neg hnot, Except.ok.injEq] at hks
    subst hks
    exact lfgRun_prefix_and_bound (fun _ => 12) (fun _ => by norm_num) _ N hp
  · intro hne hge ks hks
    have hpos : ∀ b ∈ pattern, 0 < b := fun b hb => by have := hge b hb; omega
    simp only [generate_key_custom_pattern, if_neg hnot] at hks
    rw [customRun_eq_lfgRun pattern hne hpos N 0 _ hp, Except.ok.injEq] at hks
    subst hks
    exact lfgRun_prefix_and_bound (fun j => pattern.getD (j % pattern.length) 0)
      (fun j => hpos _ (pattern_getD_mem pattern hne j)) _ N hp

theorem c3_amended_digit_ranges_witness :
    2 ≤ (primerDigits "39").length ∧
      generate_key_base5 "39" 3 = Except.ok [3, 9, 2] ∧ (2 : Nat) < 5 ∧
      generate_key_standard "39" 3 = Except.ok [3, 9, 2] ∧ (2 : Nat) < 10 :=
  ⟨by decide, by decide,
    (((c3_amended_digit_ranges "39" 3 [5, 12] (by decide)).2.2.1 [3, 9, 2]
      (by decide)).2 2 2 (by decide) (by decide)),
    by decide,
    (((c3_amended_digit_ranges "39" 3 [5, 12] (by decide)).1 [3, 9, 2]
      (by decide)).2 2 2 (by decide) (by decide))⟩

/-- C6: for a primer with at least two digits, every generator — standard,
alternating, fixed base 5, fixed base 12, and custom with a non-empty pattern
of moduli at least 2 — succeeds and returns a keystream of exactly the
requested length. -/
theorem c6_keystream_length (primer : String) (N : Nat) (pattern : List Nat)
    (hp : 2 ≤ (primerDigits primer).length) (hne : pattern ≠ [])
    (hge : ∀ b ∈ pattern, 2 ≤ b) :
    (∃ l, generate_key_standard primer N = Except.ok l ∧ l.length = N) ∧
      (∃ l, generate_key_berlin primer N = Except.ok l ∧ l.length = N) ∧
      (∃ l, generate_key_base5 primer N = Except.ok l ∧ l.length = N) ∧
      (∃ l, generate_key_base12 primer N = Except.ok l ∧ l.length = N) ∧
      (∃ l, generate_key_custom_pattern primer N pattern = Except.ok l ∧ l.length = N) := by
  have hnot : ¬ (primerDigits primer).length < 2 := by omega
  have hpos : ∀ b ∈ pattern, 0 < b := fun b hb => by have := hge b hb; omega
  refine ⟨?_, ?_, ?_, ?_, ?_⟩
  · simp only [generate_key_standard, if_neg hnot]
    exact ⟨_, rfl, lfgRun_length _ N 0 _ hp⟩
  · simp only [generate_key_berlin, if_neg hnot]
    exact ⟨_, rfl, lfgRun_length _ N 0 _ hp⟩
  · simp only [generate_key_base5, if_neg hnot]
    exact ⟨_, rfl, lfgRun_length _ N 0 _ hp⟩
  · simp only [generate_key_base12, if_neg hnot]
    exact ⟨_, rfl, lfgRun_length _ N 0 _ hp⟩
  · simp only [generate_key_custom_pattern, if_neg hnot]
    rw [customRun_eq_lfgRun pattern hne hpos N 0 _ hp]
    exact ⟨_, rfl, lfgRun_length _ N 0 _ hp⟩

theorem c6_keystream_length_witness :
    2 ≤ (primerDigits "31").length ∧
      ((∃ l, generate_key_standard "31" 4 = Except.ok l ∧ l.length = 4) ∧
        (∃ l, generate_key_berlin "31" 4 = Except.ok l ∧ l.length = 4) ∧
        (∃ l, generate_key_base5 "31" 4 = Except.ok l ∧ l.length = 4) ∧
        (∃ l, generate_key_base12 "31" 4 = Except.ok l ∧ l.length = 4) ∧
        (∃ l, generate_key_custom_pattern "31" 4 [5, 12] = Except.ok l ∧ l.length = 4)) :=
  ⟨by decide, c6_keystream_length "31" 4 [5, 12] (by decide) (by decide) (by decide)⟩

/-- C7: a primer with fewer than two digit characters makes every generator
fail with the invalid-primer error instead of returning a keystream. -/
theorem c7_invalid_primer_rejected (primer : String) (N : Nat) (pattern : List Nat)
    (h : (primerDigits primer).length < 2) :
    generate_key_standard primer N
        = Except.error "Primer must contain at least two digits." ∧
      generate_key_berlin primer N
        = Except.error "Primer must contain at least two digits." ∧
      generate_key_base5 primer N
        = Except.error "Primer must contain at least two digits." ∧
      generate_key_base12 primer N
        = Except.error "Primer must contain at least two digits." ∧
      generate_key_custom_pattern primer N pattern
        = Except.error "Primer must contain at least two digits." := by
  refine ⟨?_, ?_, ?_, ?_, ?_⟩ <;>
    simp only [generate_key_standard, generate_key_berlin, generate_key_base5,
      generate_key_base12, generate_key_custom_pattern, if_pos h]

theorem c7_invalid_primer_rejected_witness :
    (primerDigits "x7").length < 2 ∧
      generate_key_standard "x7" 3 = Except.error "Primer must contain at least two digits." :=
  ⟨by decide, (c7_invalid_primer_rejected "x7" 3 [5] (by decide)).1⟩

/-- C8 counterexample: with requested length 0 the custom generator accepts an
empty modulus pattern and returns the empty keystream instead of failing. -/
theorem c8_counterexample_length_zero :
    generate_key_custom_pattern "12" 0 [] = Except.ok [] := by decide

/-- C8 (amended): with an empty modulus pattern and a valid primer the custom
generator fails (Python's ZeroDivisionError from `pattern[i % len(pattern)]`)
for every requested length of at least 1; with requested length 0 the loop
never runs and the empty keystream is returned without error. -/
theorem c8_empty_pattern_error (primer : String) (N : Nat)
    (hp : 2 ≤ (primerDigits primer).length) :
    generate_key_custom_pattern primer 0 [] = Except.ok [] ∧
      (1 ≤ N →
        generate_key_custom_pattern primer N [] = Except.error "integer modulo by zero") := by
  have hnot : ¬ (primerDigits primer).length < 2 := by omega
  constructor
  · simp only [generate_key_custom_pattern, if_neg hnot]
    rw [customRun]
  · intro hN
    simp only [generate_key_custom_pattern, if_neg hnot]
    exact customRun_nil_error N 0 _ hp hN

theorem c8_empty_pattern_error_witness :
    2 ≤ (primerDigits "12").length ∧
      generate_key_custom_pattern "12" 1 [] = Except.error "integer modulo by zero" :=
  ⟨by decide, (c8_empty_pattern_error "12" 1 (by decide)).2 (by decide)⟩

/-! ### The pattern enumerator -/

theorem mem_foldl_patternStep_of_mem (l : List (List Nat)) :
    ∀ (acc : List (List Nat)) (a : List Nat), a ∈ acc → a ∈ l.foldl patternStep acc := by
  induction l with
  | nil => intro acc a ha; exact ha
  | cons x xs ih =>
    intro acc a ha
    refine ih (patternStep acc x) a ?_
    rw [patternStep]
    by_cases hx : x ∈ acc
    · rw [if_pos hx]; exact ha
    · rw [if_neg hx]; exact List.mem_append_left _ ha

theorem mem_foldl_patternStep_of_mem_list (l : List (List Nat)) :
    ∀ (acc : List (List Nat)) (a : List Nat), a ∈ l → a ∈ l.foldl patternStep acc := by
  induction l with
  | nil => intro acc a ha; simp at ha
  | cons x xs ih =>
    intro acc a ha
    rcases List.mem_cons.mp ha with rfl | ha2
    · refine mem_foldl_patternStep_of_mem xs (patternStep acc a) a ?_
      rw [patternStep]
      by_cases hx : a ∈ acc
      · rw [if_pos hx]; exact hx
      · rw [if_neg hx]
        exact List.mem_append_right _ (by simp)
    · exact ih _ a ha2

theorem nodup_foldl_patternStep (l : List (List Nat)) :
    ∀ acc : List (List Nat), acc.Nodup → (l.foldl patternStep acc).Nodup := by
  induction l with
  | nil => intro acc h; exact h
  | cons x xs ih =>
    intro acc h
    refine ih _ ?_
    rw [patternStep]
    by_cases hx : x ∈ acc
    · rw [if_pos hx]; exact h
    · rw [if_neg hx]
      rw [List.nodup_append]
      refine ⟨h, List.nodup_singleton x, fun a ha hb => ?_⟩
      rw [List.mem_singleton] at hb
      subst hb
      exact hx ha

theorem mem_productRep (vals : List Nat) :
    ∀ (n : Nat) (l : List Nat), l ∈ productRep vals n ↔ l.length = n ∧ ∀ v ∈ l, v ∈ vals := by
  intro n
  induction n with
  | zero =>
    intro l
    rw [productRep]
    simp only [List.mem_singleton, List.length_eq_zero]
    constructor
    · rintro rfl
      exact ⟨rfl, by simp⟩
    · rintro ⟨rfl, _⟩
      rfl
  | succ n ih =>
    intro l
    rw [productRep]
    simp only [List.mem_flatMap, List.mem_map]
    constructor
    · rintro ⟨v, hv, t, ht, rfl⟩
      rcases (ih t).mp ht with ⟨hlen, hall⟩
      refine ⟨by simp [hlen], fun w hw => ?_⟩
      rcases List.mem_cons.mp hw with rfl | hw2
      · exact hv
      · exact hall w hw2
    · rintro ⟨hlen, hall⟩
      cases l with
      | nil => simp at hlen
      | cons v t =>
        exact ⟨v, hall v (List.mem_cons_self _ _), t,
          (ih t).mpr ⟨by simpa using hlen, fun w hw => hall w (List.mem_cons_of_mem _ hw)⟩,
          rfl⟩

theorem mem_outer_fold_of_mem (L : List Nat) :
    ∀ (acc : List (List Nat)) (a : List Nat), a ∈ acc →
      a ∈ L.foldl (fun ps len => (productRep [5, 12] len).foldl patternStep ps) acc := by
  induction L with
  | nil => intro acc a ha; exact ha
  | cons x xs ih =>
    intro acc a ha
    exact ih _ a (mem_foldl_patternStep_of_mem _ _ a ha)

theorem mem_outer_fold_of_combo (L : List Nat) :
    ∀ (acc : List (List Nat)) (combo : List Nat) (len : Nat), len ∈ L →
      combo ∈ productRep [5, 12] len →
      combo ∈ L.foldl (fun ps l => (productRep [5, 12] l).foldl patternStep ps) acc := by
  induction L with
  | nil => intro acc combo len h; simp at h
  | cons x xs ih =>
    intro acc combo len hlen hcombo
    rcases List.mem_cons.mp hlen with rfl | h2
    · exact mem_outer_fold_of_mem xs _ combo
        (mem_foldl_patternStep_of_mem_list _ _ combo hcombo)
    · exact ih _ combo len h2 hcombo

theorem nodup_outer_fold (L : List Nat) :
    ∀ acc : List (List Nat), acc.Nodup →
      (L.foldl (fun ps len => (productRep [5, 12] len).foldl patternStep ps) acc).Nodup := by
  induction L with
  | nil => intro acc h; exact h
  | cons x xs ih =>
    intro acc h
    exact ih _ (nodup_foldl_patternStep _ acc h)

/-- C9: for any maximum length of at least 2, the enumerator output contains
the six seed patterns, contains every combination of the values 5 and 12 of
each length from 2 to the maximum, and has no duplicate patterns. -/
theorem c9_berlin_clock_patterns (maxLen : Nat) (h2 : 2 ≤ maxLen) :
    (([5] : List Nat) ∈ generate_berlin_clock_patterns maxLen ∧
        ([12] : List Nat) ∈ generate_berlin_clock_patterns maxLen ∧
        ([5, 12] : List Nat) ∈ generate_berlin_clock_patterns maxLen ∧
        ([5, 5, 12, 12] : List Nat) ∈ generate_berlin_clock_patterns maxLen ∧
        ([4, 11] : List Nat) ∈ generate_berlin_clock_patterns maxLen ∧
        ([4, 4, 11, 11] : List Nat) ∈ generate_berlin_clock_patterns maxLen) ∧
      (∀ combo : List Nat, 2 ≤ combo.length → combo.length ≤ maxLen →
        (∀ v ∈ combo, v = 5 ∨ v = 12) → combo ∈ generate_berlin_clock_patterns maxLen) ∧
      (generate_berlin_clock_patterns maxLen).Nodup := by
  simp only [generate_berlin_clock_patterns]
  refine ⟨⟨?_, ?_, ?_, ?_, ?_, ?_⟩, ?_, ?_⟩
  · exact mem_outer_fold_of_mem _ _ _ (by simp)
  · exact mem_outer_fold_of_mem _ _ _ (by simp)
  · exact mem_outer_fold_of_mem _ _ _ (by simp)
  · exact mem_outer_fold_of_mem _ _ _ (by simp)
  · exact mem_outer_fold_of_mem _ _ _ (by simp)
  · exact mem_outer_fold_of_mem _ _ _ (by simp)
  · intro combo hc2 hcmax hvals
    have hlen : combo.length ∈ List.range' 2 (maxLen - 1) := by
      rw [List.mem_range']
      exact ⟨combo.length - 2, by omega, by omega⟩
    refine mem_outer_fold_of_combo _ _ combo combo.length hlen ?_
    rw [mem_productRep]
    refine ⟨rfl, fun v hv => ?_⟩
    rcases hvals v hv with rfl | rfl <;> simp
  · exact nodup_outer_fold _ _ (by decide)

theorem c9_berlin_clock_patterns_witness :
    2 ≤ 2 ∧ ([5] : List Nat) ∈ generate_berlin_clock_patterns 2 ∧
      ([12, 5] : List Nat) ∈ generate_berlin_clock_patterns 2 ∧
      (generate_berlin_clock_patterns 2).Nodup :=
  ⟨by omega, (c9_berlin_clock_patterns 2 (by omega)).1.1,
    (c9_berlin_clock_patterns 2 (by omega)).2.1 [12, 5] (by decide) (by decide) (by decide),
    (c9_berlin_clock_patterns 2 (by omega)).2.2⟩

/-! ### The brute-force orchestrator -/

theorem collectResults_error {α : Type} :
    ∀ (l : List (Except String α)) (e : String), Except.error e ∈ l →
      ∃ e2, collectResults l = Except.error e2 := by
  intro l
  induction l with
  | nil => intro e he; simp at he
  | cons x rest ih =>
    intro e he
    cases x with
    | error e0 => exact ⟨e0, rfl⟩
    | ok a =>
      rcases List.mem_cons.mp he with h | h
      · exact Except.noConfusion h
      · rcases ih e h with ⟨e2, h2⟩
        refine ⟨e2, ?_⟩
        rw [collectResults, h2]
        rfl

/-- C1 counterexample: with the single-digit primer candidate 5 in the pool,
the whole search fails with the invalid-primer error instead of completing
with a result set from which that candidate is merely absent. -/
theorem c1_counterexample_bad_primer_aborts :
    brute_force_decrypt "AB".toList [5] "none" [[10]] 10
      = Except.error "Primer must contain at least two digits." := by decide

/-- C1 (amended): `brute_force_decrypt` does not isolate per-candidate
failures — if any (primer, pattern) candidate in the product fails keystream
generation, the error propagates and the search returns no result set. -/
theorem c1_failed_candidate_aborts_search (ciphertext : List Char)
    (primer_range : List Nat) (keyword : String) (base_patterns : List (List Nat))
    (num_results : Nat) (p : Nat) (pat : List Nat) (e : String)
    (hp : p ∈ primer_range) (hpat : pat ∈ base_patterns)
    (hfail : process_decryption_attempt ciphertext p pat (build_cipher_alphabet keyword)
      = Except.error e) :
    ∃ e2, brute_force_decrypt ciphertext primer_range keyword base_patterns num_results
      = Except.error e2 := by
  have hmem : Except.error e ∈
      ((primer_range.flatMap
          (fun primer => base_patterns.map (fun pattern => (primer, pattern)))).map
        (fun args =>
          process_decryption_attempt ciphertext args.1 args.2
            (build_cipher_alphabet keyword))) := by
    rw [← hfail]
    refine List.mem_map.mpr ⟨(p, pat), ?_, rfl⟩
    refine List.mem_flatMap.mpr ⟨p, hp, ?_⟩
    exact List.mem_map.mpr ⟨pat, hpat, rfl⟩
  rcases collectResults_error _ e hmem with ⟨e2, h2⟩
  refine ⟨e2, ?_⟩
  simp only [brute_force_decrypt]
  rw [h2]
  rfl

theorem c1_failed_candidate_aborts_search_witness :
    (5 : Nat) ∈ [5, 31] ∧ ([10] : List Nat) ∈ [[10]] ∧
      (∃ e2, brute_force_decrypt "AB".toList [5, 31] "none" [[10]] 10
        = Except.error e2) :=
  ⟨by decide, by decide,
    c1_failed_candidate_aborts_search "AB".toList [5, 31] "none" [[10]] 10 5 [10]
      "Primer must contain at least two digits." (by decide) (by decide) (by decide)⟩

/-! ### The repetition penalty -/

theorem foldl_sub_penalty (c : Nat → Prop) [DecidablePred c] (g : Nat → Int) :
    ∀ (l : List Nat) (init : Int),
      l.foldl (fun s i => if c i then s - g i else s) init
        = init - (l.map (fun i => if c i then g i else 0)).sum := by
  intro l
  induction l with
  | nil => intro init; simp
  | cons x xs ih =>
    intro init
    rw [List.foldl_cons, ih, List.map_cons, List.sum_cons]
    by_cases hx : c x
    · rw [if_pos hx, if_pos hx]; ring
    · rw [if_neg hx, if_neg hx]; ring

/-- C4 counterexample: on the 15-character text XQJZWXQJZWXQJZW the scanned
repetition penalty is 60 points (window starts 0 through 9 only), while the
claimed penalty over every overlapping window start (0 through 10) is 90
points — the claimed score and the computed score differ. -/
theorem c4_counterexample_missing_last_window :
    score_text "XQJZWXQJZWXQJZW".toList
      ≠ score_text_base "XQJZWXQJZWXQJZW".toList
          - claimedRepetitionPenalty "XQJZWXQJZWXQJZW".toList := by decide

/-- C4 (amended): the scorer applies the repetition penalty at window start
positions 0 through `len(text) - 6` (`range(len(text) - 5)` — the last
overlapping window start is never scanned), counting the non-overlapping
occurrences of each scanned 5-character window as Python `str.count` does,
and subtracting ten points times the count whenever the count exceeds 2. -/
theorem c4_amended_repetition_penalty (text : List Char) :
    score_text text = score_text_base text - codeRepetitionPenalty text := by
  have h : score_text text
      = (List.range (text.length - 5)).foldl
          (fun s i =>
            let pat := (text.drop i).take 5
            let pattern_count := countSub pat text
            if pattern_count > 2 then s - (pattern_count : Int) * 100 else s)
          (score_text_base text) := rfl
  rw [h, codeRepetitionPenalty]
  exact foldl_sub_penalty (fun i => countSub ((text.drop i).take 5) text > 2)
    (fun i => (countSub ((text.drop i).take 5) text : Int) * 100) _ _

end Gromark
